import Mathlib

/-!
Verification development for the flexcat PTC pipeline.

The repository provides a producer-transformer-consumer pipeline built from
two fixed-size arrays of atomic item slots (struct Produce and struct Reduce,
coordinated by struct PTC_unit, in the unnamed header, called part_000 below),
and a source adapter ReadReader (read_reader.h) that pulls batches of reads
and enforces the firstReads cap.

The development has three layers.

1. Pure embeddings of the single-thread routines: one pass of the slot scan
   in Produce.getItem, the idle checks, the consumer loop condition, and the
   ReadReader call.  These are direct translations of the loop bodies; in a
   single pass without interference a compare-exchange on the observed value
   always succeeds, so the scan is a pure function.

2. A small-step transition system for a running pipeline: one producer
   thread, a list of worker threads, one consumer thread and the coordinator
   executing waitForFinish, interleaved.  Atomic loads, compare-exchanges and
   stores of the C++ code become guarded steps; the compare-exchange races of
   getItem and pushItem are kept (observe a slot, then a separate compare
   step that can fail), because the mutual-exclusion claims are about exactly
   those.  Semaphores are modelled as monotone signal tallies and waits as
   stutter steps: every claim settled on this layer is a safety property, and
   the semaphore variant and the polling variant differ only in liveness.
   Items carry a sequence number (their index in the order the source emitted
   them) standing for the identity of the heap allocation that the C++ code
   hands around as a pointer.

3. Invariants of the transition system, proved by induction over
   reachability, and the claim theorems.
-/

namespace Flexcat

universe u v

/-! ## Pure embeddings of the slot routines (part_000) -/

section PureSlots

variable {γ : Type u}

/-- Reduce.idle (part_000 lines 297 to 303): true iff every output slot is
observed EMPTY (nullptr). -/
def reduceIdle (slots : List (Option γ)) : Bool :=
  slots.all Option.isNone

/-- Produce.idle (part_000 lines 93 to 101): false unless eof is set, then
true iff every input slot is observed EMPTY. -/
def produceIdle (eof : Bool) (slots : List (Option γ)) : Bool :=
  eof && slots.all Option.isNone

/-- The slot scan inside the while loop of Produce.getItem (part_000 lines
117 to 127): walk the slots in index order, and at the first slot whose load
is non-null, compare-exchange it to null and hand the item out.  Without
interference the compare-exchange succeeds at the first non-empty slot, so
the pure reading returns that item together with the slot array after the
exchange, or none when every slot was observed empty. -/
def scanTake : List (Option γ) → Option (γ × List (Option γ))
  | [] => none
  | some x :: rest => some (x, none :: rest)
  | none :: rest =>
    match scanTake rest with
    | some (x, rest') => some (x, none :: rest')
    | none => none

/-- Result of one iteration of the while loop of Produce.getItem. -/
inductive GetItemRes (γ : Type u) where
  | got (x : γ) (slots : List (Option γ))
  | eofNone
  | waitRetry
deriving DecidableEq

/-- One iteration of the while loop of Produce.getItem (part_000 lines 112
to 140): load eof with acquire ordering first, then scan the slots; if the
scan takes an item return it (ownership moves to the caller); otherwise
return the EOF result exactly when the pre-scan load of eof was true; in the
remaining case wait (semaphore or sleep) and retry. -/
def getItemRound (eof : Bool) (slots : List (Option γ)) : GetItemRes γ :=
  match scanTake slots with
  | some (x, slots') => .got x slots'
  | none => if eof then .eofNone else .waitRetry

/-- The loop condition of the consumer thread in Reduce.start (part_000 line
230): keep looping while run is still set or the previous scan found
something to do. -/
def consumerLoopCond (run nothingToDo : Bool) : Bool :=
  run || !nothingToDo

/-- The spin loop of PTC_unit.waitForFinish on a pipeline that was never
started: no thread is running, so the consumer slot vector (empty before
Reduce.start) never changes between checks of Reduce.idle, and the loop
state is fuel only.  Returns the number of completed extra iterations if the
loop terminates within the given fuel, none otherwise. -/
def spinUnstarted (slots : List (Option γ)) : Nat → Option Nat
  | 0 => if reduceIdle slots then some 0 else none
  | fuel + 1 => if reduceIdle slots then some 0 else spinUnstarted slots fuel

/-- The joins that PTC_unit.waitForFinish performs (part_000 lines 181 to
183): each worker handle is joined only if joinable.  The handles are given
by their joinable flags; a default-constructed std thread (a pipeline that
was never started) is not joinable. -/
def joinsPerformed (threadsJoinable : List Bool) : Nat :=
  (threadsJoinable.filter id).length

/-- The join that Reduce.shutDown performs (part_000 lines 289 to 296):
after clearing run and signalling, join the consumer thread only if it is
joinable. -/
def shutDownJoins (consumerJoinable : Bool) : Nat :=
  if consumerJoinable then 1 else 0

end PureSlots

/-! ## ReadReader (read_reader.h)

One invocation of ReadReader.operator() does, in order: allocate a fresh
batch; call readReads into it (this can throw, in which case the current
value of the counter numReads is printed with the failure and the exception
is rethrown, the counter untouched); call loadMultiplex; add the final batch
size to numReads; if the batch is empty or numReads now exceeds firstReads,
release the batch and return a null pointer (EOF), else return the batch.
The outcome of readReads plus loadMultiplex is abstracted as either a batch
(the final contents of the vector) or an exception value. -/

section Reader

variable {R : Type u} {E : Type v}

/-- What readReads and loadMultiplex produced on one call: the filled batch,
or the exception readReads threw. -/
inductive ReadRes (R : Type u) (E : Type v) where
  | ok (batch : List R)
  | err (e : E)

/-- Outcome of one ReadReader.operator() invocation. -/
inductive ReadOutcome (R : Type u) (E : Type v) where
  | delivered (batch : List R)
  | eofBatch
  | raised (e : E) (logged : Nat)
deriving DecidableEq

/-- One invocation of ReadReader.operator() (read_reader.h lines 21 to 36),
given the readReads result and the current numReads counter; returns the
outcome and the new counter. -/
def readerCall (firstReads : Nat) (res : ReadRes R E) (numReads : Nat) :
    ReadOutcome R E × Nat :=
  match res with
  | .err e => (.raised e numReads, numReads)
  | .ok batch =>
    let n := numReads + batch.length
    if batch.isEmpty ∨ firstReads < n then (.eofBatch, n) else (.delivered batch, n)

/-- How a sequence of producer calls into ReadReader ended: ranOut when the
call list was exhausted with every call delivering, eofEnd at the first EOF,
raisedEnd at the first exception (with the counter value that was logged). -/
inductive ReaderEnd (E : Type v) where
  | ranOut
  | eofEnd
  | raisedEnd (e : E) (logged : Nat)
deriving DecidableEq

/-- The producer calls the source repeatedly and stops at the first EOF or
exception.  Given the readReads results of the successive calls and the
starting counter, return the delivered batches, the final counter, and how
the run ended. -/
def readerRunList (firstReads : Nat) :
    List (ReadRes R E) → Nat → List (List R) × Nat × ReaderEnd E
  | [], st => ([], st, .ranOut)
  | res :: rest, st =>
    match readerCall firstReads res st with
    | (.raised e lg, st') => ([], st', .raisedEnd e lg)
    | (.eofBatch, st') => ([], st', .eofEnd)
    | (.delivered b, st') =>
      match readerRunList firstReads rest st' with
      | (ds, st'', en) => (b :: ds, st'', en)

/-- The infinite-stream scenario of the spec: every readReads call fills
exactly r reads (modelled as r copies of a default read).  readerTrace
firstReads r k is the state after k producer calls: delivered reads so far,
the numReads counter, and whether EOF has been returned (after which the
producer makes no further call, so the state freezes). -/
def readerTrace (firstReads r : Nat) : Nat → Nat × Nat × Bool
  | 0 => (0, 0, false)
  | k + 1 =>
    match readerTrace firstReads r k with
    | (d, st, true) => (d, st, true)
    | (d, st, false) =>
      match readerCall (E := Unit) firstReads (.ok (List.replicate r (0 : Nat))) st with
      | (.delivered b, st') => (d + b.length, st', false)
      | (_, st') => (d, st', true)

end Reader

/-! ## The pipeline transition system (part_000)

The state of a running PTC_unit directly after PTC_unit.start: the producer
thread is at the top of its scan (Produce.start lines 57 to 91), the N
worker threads are about to call getItem (PTC_unit.start lines 168 to 177),
the consumer thread is at its loop head with nothingToDo = false and run =
true (Reduce.start lines 226 to 263), and the coordinator is in
waitForFinish (lines 179 to 188).  Both slot arrays have numWorkers + 1
slots, as passed by PTC_unit.start.

Modelling notes, each tied to the code:
- An item is a pair (sequence number, payload); the sequence number stands
  for the identity of the heap allocation.
- The producer checks eof after every slot (line 80); eof is written only by
  the producer itself and only on the return path, so the check fires only
  on that path; the model keeps the return path explicit (states sigK and
  ret) and drops the always-false mid-scan check.
- A worker exit from getItem requires that the pre-scan acquire load of eof
  was true and that the following scan took nothing.  After eof no slot is
  ever refilled, so the scan finds nothing exactly when all slots are empty
  at its end; the exit guard states that directly.
- Consumer withdrawal (lines 236 to 247) loads a slot twice and stores null;
  no other thread can change a non-null slot (workers only compare-exchange
  against null), so it is one atomic step here.
- Semaphore signal counts are kept as monotone tallies (readAvail,
  slotEmptyIn, itemAvail, slotEmptyOut); waits are stutters.
-/

section Pipeline

variable {α β : Type u}

/-- Worker-thread state inside the loop of PTC_unit.start lines 168 to 177:
idle (about to scan in getItem), observed a non-null input slot (about to
compare-exchange it), holding a taken item (about to call the transformer),
pushing the transformed item (scanning output slots in Reduce.pushItem),
observed an empty output slot (about to compare-exchange it), or returned. -/
inductive WSt (α β : Type u) where
  | idle
  | obs (i : Nat) (v : Nat × α)
  | hold (v : Nat × α)
  | push (y : Nat × β)
  | pobs (j : Nat) (y : Nat × β)
  | wdone
deriving DecidableEq

/-- Producer-thread program counter in Produce.start lines 57 to 91: at slot
i of the scan (with the noEmptySlot local), about to signal after storing
eof, about to return, or returned. -/
inductive PPc where
  | scan (i : Nat) (noEmpty : Bool)
  | sigK
  | ret
  | pdone
deriving DecidableEq

/-- Consumer-thread program counter in Reduce.start lines 226 to 263: at the
loop head holding the nothingToDo local, at slot i of the scan (found
records whether this scan withdrew anything yet), or terminated. -/
inductive CSt where
  | head (nothingToDo : Bool)
  | scan (i : Nat) (found : Bool)
  | cdone
deriving DecidableEq

/-- Coordinator progress through PTC_unit.waitForFinish lines 179 to 188:
still joining workers, workers joined, consumer observed idle, shutDown
called (run cleared), consumer joined (waitForFinish returned). -/
inductive Coord where
  | running
  | joined
  | idleSeen
  | shut
  | fin
deriving DecidableEq

/-- Construction parameters: worker count, the source callable and the
transformer. -/
structure Cfg (α β : Type u) where
  numWorkers : Nat
  src : Nat → Option α
  transform : α → β

/-- Global state of the running pipeline.  produced logs the items the
source emitted in order; delivered logs the sink invocations in order;
takenBy logs every successful input compare-exchange as (item sequence
number, worker index). -/
structure St (α β : Type u) where
  inSlots : List (Option (Nat × α))
  outSlots : List (Option (Nat × β))
  eof : Bool
  run : Bool
  produced : List (Nat × α)
  delivered : List (Nat × β)
  takenBy : List (Nat × Nat)
  workers : List (WSt α β)
  ppc : PPc
  cons : CSt
  cpc : Coord
  readAvail : Nat
  slotEmptyIn : Nat
  itemAvail : Nat
  slotEmptyOut : Nat
deriving DecidableEq

/-- The state directly after PTC_unit.start (lines 163 to 178): producer and
consumer started with numWorkers + 1 slots each, run set, workers spawned. -/
def initSt (cfg : Cfg α β) : St α β where
  inSlots := List.replicate (cfg.numWorkers + 1) none
  outSlots := List.replicate (cfg.numWorkers + 1) none
  eof := false
  run := true
  produced := []
  delivered := []
  takenBy := []
  workers := List.replicate cfg.numWorkers .idle
  ppc := .scan 0 true
  cons := .head false
  cpc := .running
  readAvail := 0
  slotEmptyIn := 0
  itemAvail := 0
  slotEmptyOut := 0

/-- One interleaved atomic step of the pipeline. -/
inductive Step (cfg : Cfg α β) : St α β → St α β → Prop where
  /-- Producer scan, slot occupied: move on (line 66 test fails). -/
  | pSkipFull (s : St α β) (i : Nat) (ne : Bool) (v : Nat × α)
      (hpc : s.ppc = .scan i ne) (hslot : s.inSlots.get? i = some (some v)) :
      Step cfg s {s with ppc := .scan (i + 1) ne}
  /-- Producer scan, empty slot and the source returns an item: publish it
  into the slot (line 72), log it, signal readAvailable once (line 78). -/
  | pPublish (s : St α β) (i : Nat) (ne : Bool) (a : α)
      (hpc : s.ppc = .scan i ne) (hslot : s.inSlots.get? i = some none)
      (hsrc : cfg.src s.produced.length = some a) :
      Step cfg s {s with
        inSlots := s.inSlots.set i (some (s.produced.length, a)),
        produced := s.produced ++ [(s.produced.length, a)],
        readAvail := s.readAvail + 1,
        ppc := .scan (i + 1) false}
  /-- Producer scan, empty slot and the source reports end of input: store
  eof with release semantics (line 74) and move to the signalling block. -/
  | pEofSet (s : St α β) (i : Nat) (ne : Bool)
      (hpc : s.ppc = .scan i ne) (hslot : s.inSlots.get? i = some none)
      (hsrc : cfg.src s.produced.length = none) :
      Step cfg s {s with eof := true, ppc := .sigK}
  /-- After storing eof, signal readAvailable once per slot to wake every
  potentially blocked worker (line 77). -/
  | pSigAll (s : St α β) (hpc : s.ppc = .sigK) :
      Step cfg s {s with readAvail := s.readAvail + s.inSlots.length, ppc := .ret}
  /-- The eof test at line 80 is now true: return from the producer thread. -/
  | pReturn (s : St α β) (hpc : s.ppc = .ret) :
      Step cfg s {s with ppc := .pdone}
  /-- Producer scan wrapped around (line 83): possibly wait, then restart the
  scan with noEmptySlot reset to true. -/
  | pWrap (s : St α β) (i : Nat) (ne : Bool)
      (hpc : s.ppc = .scan i ne) (hlen : s.inSlots.length ≤ i) :
      Step cfg s {s with ppc := .scan 0 true}
  /-- A worker in getItem loads a non-null pointer from an input slot (line
  119). -/
  | wObserve (s : St α β) (w i : Nat) (v : Nat × α)
      (hw : s.workers.get? w = some .idle)
      (hslot : s.inSlots.get? i = some (some v)) :
      Step cfg s {s with workers := s.workers.set w (.obs i v)}
  /-- The compare-exchange at line 121 succeeds: the slot still holds the
  observed pointer, the worker empties it and owns the item; signal
  slotEmpty (line 125). -/
  | wTakeOk (s : St α β) (w i : Nat) (v : Nat × α)
      (hw : s.workers.get? w = some (.obs i v))
      (hslot : s.inSlots.get? i = some (some v)) :
      Step cfg s {s with
        inSlots := s.inSlots.set i none,
        takenBy := s.takenBy ++ [(v.1, w)],
        slotEmptyIn := s.slotEmptyIn + 1,
        workers := s.workers.set w (.hold v)}
  /-- The compare-exchange at line 121 fails (another worker emptied the
  slot first): continue the scan empty-handed. -/
  | wTakeFail (s : St α β) (w i : Nat) (v : Nat × α)
      (hw : s.workers.get? w = some (.obs i v))
      (hslot : s.inSlots.get? i ≠ some (some v)) :
      Step cfg s {s with workers := s.workers.set w .idle}
  /-- getItem returns false (line 131): the pre-scan load of eof was true
  and the scan took nothing.  After eof no slot is refilled, so the scan
  finds nothing exactly when every slot is empty; the worker loop then
  terminates (line 172). -/
  | wEofStop (s : St α β) (w : Nat)
      (hw : s.workers.get? w = some .idle) (heof : s.eof = true)
      (hempty : ∀ o ∈ s.inSlots, o = none) :
      Step cfg s {s with workers := s.workers.set w .wdone}
  /-- The worker applies the transformer to the item it took (line 174). -/
  | wTransform (s : St α β) (w : Nat) (k : Nat) (a : α)
      (hw : s.workers.get? w = some (.hold (k, a))) :
      Step cfg s {s with workers := s.workers.set w (.push (k, cfg.transform a))}
  /-- In Reduce.pushItem the worker loads null from an output slot (line
  268). -/
  | wPushObserve (s : St α β) (w j : Nat) (y : Nat × β)
      (hw : s.workers.get? w = some (.push y))
      (hslot : s.outSlots.get? j = some none) :
      Step cfg s {s with workers := s.workers.set w (.pobs j y)}
  /-- The compare-exchange at line 271 succeeds (the slot is still null):
  ownership moves into the slot; signal itemAvailable (line 275); pushItem
  returns and the worker loops back to getItem. -/
  | wPushOk (s : St α β) (w j : Nat) (y : Nat × β)
      (hw : s.workers.get? w = some (.pobs j y))
      (hslot : s.outSlots.get? j = some none) :
      Step cfg s {s with
        outSlots := s.outSlots.set j (some y),
        itemAvail := s.itemAvail + 1,
        workers := s.workers.set w .idle}
  /-- The compare-exchange at line 271 fails (another worker filled the slot
  first): keep scanning with the item still in hand. -/
  | wPushFail (s : St α β) (w j : Nat) (y : Nat × β)
      (hw : s.workers.get? w = some (.pobs j y))
      (hslot : s.outSlots.get? j ≠ some none) :
      Step cfg s {s with workers := s.workers.set w (.push y)}
  /-- Consumer loop head (line 230): the condition run or not nothingToDo
  holds, start a scan with nothingToDo reset (line 232). -/
  | cEnterScan (s : St α β) (ntd : Bool)
      (hc : s.cons = .head ntd) (hcond : s.run = true ∨ ntd = false) :
      Step cfg s {s with cons := .scan 0 false}
  /-- Consumer loop head: run is clear and the previous scan found nothing,
  the while condition fails and the consumer thread terminates. -/
  | cStop (s : St α β)
      (hc : s.cons = .head true) (hrun : s.run = false) :
      Step cfg s {s with cons := .cdone}
  /-- Consumer scan, slot empty (line 236 test fails): move on. -/
  | cSkip (s : St α β) (i : Nat) (fnd : Bool)
      (hc : s.cons = .scan i fnd) (hslot : s.outSlots.get? i = some none) :
      Step cfg s {s with cons := .scan (i + 1) fnd}
  /-- Consumer scan, slot occupied: withdraw the item (lines 238 to 239),
  signal slotEmpty, hand the item to the sink (line 246), record that this
  scan did work. -/
  | cTake (s : St α β) (i : Nat) (fnd : Bool) (y : Nat × β)
      (hc : s.cons = .scan i fnd) (hslot : s.outSlots.get? i = some (some y)) :
      Step cfg s {s with
        outSlots := s.outSlots.set i none,
        delivered := s.delivered ++ [y],
        slotEmptyOut := s.slotEmptyOut + 1,
        cons := .scan (i + 1) true}
  /-- Consumer scan finished all slots: back to the loop head with
  nothingToDo = not found; possibly wait first (line 249). -/
  | cScanEnd (s : St α β) (i : Nat) (fnd : Bool)
      (hc : s.cons = .scan i fnd) (hlen : s.outSlots.length ≤ i) :
      Step cfg s {s with cons := .head (!fnd)}
  /-- waitForFinish line 181: all worker threads have returned, the joins
  complete. -/
  | coJoinWorkers (s : St α β)
      (hcpc : s.cpc = .running) (hall : ∀ w ∈ s.workers, w = WSt.wdone) :
      Step cfg s {s with cpc := .joined}
  /-- waitForFinish line 184: the spin observes Reduce.idle, every output
  slot empty (acquire loads). -/
  | coSeeIdle (s : St α β)
      (hcpc : s.cpc = .joined) (hempty : ∀ o ∈ s.outSlots, o = none) :
      Step cfg s {s with cpc := .idleSeen}
  /-- Reduce.shutDown lines 289 to 293: clear run and signal itemAvailable
  once. -/
  | coShutDown (s : St α β) (hcpc : s.cpc = .idleSeen) :
      Step cfg s {s with run := false, itemAvail := s.itemAvail + 1, cpc := .shut}
  /-- Reduce.shutDown line 295: the consumer thread has terminated, the join
  completes and waitForFinish returns. -/
  | coJoinConsumer (s : St α β)
      (hcpc : s.cpc = .shut) (hc : s.cons = .cdone) :
      Step cfg s {s with cpc := .fin}

/-- Reachable states of the pipeline. -/
inductive Reach (cfg : Cfg α β) : St α β → Prop where
  | init : Reach cfg (initSt cfg)
  | step {s s' : St α β} : Reach cfg s → Step cfg s s' → Reach cfg s'

/-- The transformer acting on a numbered item. -/
def trP (f : α → β) (p : Nat × α) : Nat × β :=
  (p.1, f p.2)

/-- The multiset of items currently held in a slot array. -/
def itemsOf {γ : Type u} (l : List (Option γ)) : Multiset γ :=
  (l.filterMap id : List γ)

/-- The items a worker currently owns, already mapped through the
transformer (a held item will be transformed before it can move on). -/
def wHeld (f : α → β) : WSt α β → Multiset (Nat × β)
  | .hold v => {trP f v}
  | .push y => {y}
  | .pobs _ y => {y}
  | _ => 0

/-- The items owned by any worker. -/
def heldAll (f : α → β) (ws : List (WSt α β)) : Multiset (Nat × β) :=
  (ws.map (wHeld f)).sum

/-- The inductive invariant of the pipeline. -/
structure Inv (cfg : Cfg α β) (s : St α β) : Prop where
  /-- Conservation: everything the source emitted is in the input buffer, in
  a worker, in the output buffer or delivered, with the right multiplicity. -/
  conserve :
    Multiset.map (trP cfg.transform) (itemsOf s.inSlots) +
        heldAll cfg.transform s.workers + itemsOf s.outSlots +
        (s.delivered : Multiset (Nat × β)) =
      ((s.produced.map (trP cfg.transform) : List (Nat × β)) : Multiset (Nat × β))
  /-- The source numbered the produced items 0, 1, 2, ... -/
  prodIds : s.produced.map Prod.fst = List.range s.produced.length
  inLen : s.inSlots.length = cfg.numWorkers + 1
  outLen : s.outSlots.length = cfg.numWorkers + 1
  wLen : s.workers.length = cfg.numWorkers
  /-- eof is stored only on the return path, which never rejoins the scan. -/
  eofPc : s.eof = true → ∀ i ne, s.ppc ≠ .scan i ne
  /-- A worker has returned only after eof with the input buffer drained;
  the buffer then stays drained because the producer never publishes after
  eof. -/
  doneDrained :
    (∃ w ∈ s.workers, w = WSt.wdone) → s.eof = true ∧ ∀ o ∈ s.inSlots, o = none
  /-- Joining a thread certifies it returned: past the joins, every worker
  has returned for good. -/
  joinedDone : s.cpc ≠ .running → ∀ w ∈ s.workers, w = WSt.wdone
  /-- Once the spin has observed the output buffer idle (workers already
  joined), it stays idle. -/
  idleKept :
    s.cpc = .idleSeen ∨ s.cpc = .shut ∨ s.cpc = .fin → ∀ o ∈ s.outSlots, o = none
  finCons : s.cpc = .fin → s.cons = .cdone
  runFlag : s.run = false → s.cpc = .shut ∨ s.cpc = .fin
  /-- Distinct slots hold distinct allocations. -/
  inIds : ((itemsOf s.inSlots).map Prod.fst).Nodup
  /-- An item still in the input buffer was never taken. -/
  freshIn : ∀ p ∈ itemsOf s.inSlots, p.1 ∉ s.takenBy.map Prod.fst
  /-- Each produced item is taken out of the input buffer at most once, ever. -/
  takenNodup : (s.takenBy.map Prod.fst).Nodup
  boundIn : ∀ p ∈ itemsOf s.inSlots, p.1 < s.produced.length
  boundTaken : ∀ k ∈ s.takenBy.map Prod.fst, k < s.produced.length
  /-- On the return path the eof store has already happened. -/
  sigEof : s.ppc = PPc.sigK ∨ s.ppc = PPc.ret ∨ s.ppc = PPc.pdone → s.eof = true

end Pipeline

/-! ## Concrete runs used as witnesses and counterexamples

Run A: one worker, empty source.  The producer stores eof at once; the
worker exits; waitForFinish completes while the producer thread is still
between its eof store and its return statement.

Run B: one worker, a source with exactly one item 5, transformer squaring.
The single item flows through both buffers and is delivered as 25; every
thread terminates and the coordinator finishes. -/

def cfgA : Cfg Nat Nat where
  numWorkers := 1
  src := fun _ => none
  transform := fun a => a

def stA0 : St Nat Nat := initSt cfgA
def stA1 : St Nat Nat := {stA0 with eof := true, ppc := .sigK}
def stA2 : St Nat Nat := {stA1 with workers := stA1.workers.set 0 .wdone}
def stA3 : St Nat Nat := {stA2 with cpc := .joined}
def stA4 : St Nat Nat := {stA3 with cpc := .idleSeen}
def stA5 : St Nat Nat :=
  {stA4 with run := false, itemAvail := stA4.itemAvail + 1, cpc := .shut}
def stA6 : St Nat Nat := {stA5 with cons := .scan 0 false}
def stA7 : St Nat Nat := {stA6 with cons := .scan 1 false}
def stA8 : St Nat Nat := {stA7 with cons := .scan 2 false}
def stA9 : St Nat Nat := {stA8 with cons := .head true}
def stA10 : St Nat Nat := {stA9 with cons := .cdone}
def stA11 : St Nat Nat := {stA10 with cpc := .fin}

def cfgB : Cfg Nat Nat where
  numWorkers := 1
  src := fun n => if n = 0 then some 5 else none
  transform := fun a => a * a

def stB0 : St Nat Nat := initSt cfgB
def stB1 : St Nat Nat := {stB0 with
  inSlots := stB0.inSlots.set 0 (some (0, 5)),
  produced := [(0, 5)],
  readAvail := stB0.readAvail + 1,
  ppc := .scan 1 false}
def stB2 : St Nat Nat := {stB1 with eof := true, ppc := .sigK}
def stB3 : St Nat Nat :=
  {stB2 with readAvail := stB2.readAvail + stB2.inSlots.length, ppc := .ret}
def stB4 : St Nat Nat := {stB3 with ppc := .pdone}
def stB5 : St Nat Nat := {stB4 with workers := stB4.workers.set 0 (.obs 0 (0, 5))}
def stB6 : St Nat Nat := {stB5 with
  inSlots := stB5.inSlots.set 0 none,
  takenBy := stB5.takenBy ++ [(0, 0)],
  slotEmptyIn := stB5.slotEmptyIn + 1,
  workers := stB5.workers.set 0 (.hold (0, 5))}
def stB7 : St Nat Nat := {stB6 with workers := stB6.workers.set 0 (.push (0, 25))}
def stB8 : St Nat Nat := {stB7 with workers := stB7.workers.set 0 (.pobs 0 (0, 25))}
def stB9 : St Nat Nat := {stB8 with
  outSlots := stB8.outSlots.set 0 (some (0, 25)),
  itemAvail := stB8.itemAvail + 1,
  workers := stB8.workers.set 0 .idle}
def stB10 : St Nat Nat := {stB9 with workers := stB9.workers.set 0 .wdone}
def stB11 : St Nat Nat := {stB10 with cpc := .joined}
def stB12 : St Nat Nat := {stB11 with cons := .scan 0 false}
def stB13 : St Nat Nat := {stB12 with
  outSlots := stB12.outSlots.set 0 none,
  delivered := stB12.delivered ++ [(0, 25)],
  slotEmptyOut := stB12.slotEmptyOut + 1,
  cons := .scan 1 true}
def stB14 : St Nat Nat := {stB13 with cons := .scan 2 true}
def stB15 : St Nat Nat := {stB14 with cons := .head (!true)}
def stB16 : St Nat Nat := {stB15 with cpc := .idleSeen}
def stB17 : St Nat Nat :=
  {stB16 with run := false, itemAvail := stB16.itemAvail + 1, cpc := .shut}
def stB18 : St Nat Nat := {stB17 with cons := .scan 0 false}
def stB19 : St Nat Nat := {stB18 with cons := .scan 1 false}
def stB20 : St Nat Nat := {stB19 with cons := .scan 2 false}
def stB21 : St Nat Nat := {stB20 with cons := .head (!false)}
def stB22 : St Nat Nat := {stB21 with cons := .cdone}
def stB23 : St Nat Nat := {stB22 with cpc := .fin}

/-! # Theorems -/

/-! ## Slot array and worker multiset kit -/

section Kit

variable {γ : Type u}

theorem get?_set_cases {l : List γ} {i j : Nat} {a b : γ}
    (h : (l.set i a).get? j = some b) : b = a ∨ l.get? j = some b := by
  by_cases hij : i = j
  · subst hij
    by_cases hl : i < l.length
    · rw [List.get?_set_eq_of_lt a hl] at h
      exact Or.inl (Option.some.inj h).symm
    · rw [List.set_eq_of_length_le (by omega)] at h
      exact Or.inr h
  · rw [List.get?_set_ne a l hij] at h
    exact Or.inr h

theorem itemsOf_cons_some (x : γ) (tl : List (Option γ)) :
    itemsOf (some x :: tl) = x ::ₘ itemsOf tl := rfl

theorem itemsOf_cons_none (tl : List (Option γ)) :
    itemsOf (none :: tl) = itemsOf tl := rfl

theorem mem_itemsOf {l : List (Option γ)} {v : γ} :
    v ∈ itemsOf l ↔ some v ∈ l := by
  simp [itemsOf, List.mem_filterMap]

theorem get?_mem_itemsOf {l : List (Option γ)} {i : Nat} {v : γ}
    (h : l.get? i = some (some v)) : v ∈ itemsOf l :=
  mem_itemsOf.mpr (List.get?_mem h)

theorem itemsOf_eq_zero {l : List (Option γ)} (h : ∀ o ∈ l, o = none) :
    itemsOf l = 0 := by
  have : l.filterMap id = [] := by
    rw [List.filterMap_eq_nil]
    intro o ho
    rw [h o ho]; rfl
  simp [itemsOf, this]

theorem itemsOf_set_none {l : List (Option γ)} {i : Nat} {v : γ}
    (h : l.get? i = some (some v)) :
    itemsOf l = v ::ₘ itemsOf (l.set i none) := by
  induction l generalizing i with
  | nil => simp at h
  | cons hd tl ih =>
    cases i with
    | zero =>
      have : hd = some v := Option.some.inj h
      subst this
      simp [itemsOf_cons_some, itemsOf_cons_none, List.set]
    | succ i' =>
      have h' : tl.get? i' = some (some v) := h
      cases hd with
      | none => simpa [List.set, itemsOf_cons_none] using ih h'
      | some x =>
        simp only [List.set, itemsOf_cons_some, ih h']
        exact Multiset.cons_swap x v _

theorem itemsOf_set_some {l : List (Option γ)} {i : Nat} (v : γ)
    (h : l.get? i = some none) :
    itemsOf (l.set i (some v)) = v ::ₘ itemsOf l := by
  induction l generalizing i with
  | nil => simp at h
  | cons hd tl ih =>
    cases i with
    | zero =>
      have : hd = none := Option.some.inj h
      subst this
      simp [itemsOf_cons_some, itemsOf_cons_none, List.set]
    | succ i' =>
      have h' : tl.get? i' = some none := h
      cases hd with
      | none => simpa [List.set, itemsOf_cons_none] using ih h'
      | some x =>
        simp only [List.set, itemsOf_cons_some, ih h']
        exact Multiset.cons_swap x v _

theorem mem_itemsOf_set_none {l : List (Option γ)} {i : Nat} {p : γ}
    (h : p ∈ itemsOf (l.set i none)) : p ∈ itemsOf l := by
  rw [mem_itemsOf] at h ⊢
  rcases List.mem_or_eq_of_mem_set h with h' | h'
  · exact h'
  · exact absurd h' (by simp)

theorem allNone_set_none {l : List (Option γ)} {i : Nat}
    (h : ∀ o ∈ l, o = none) : ∀ o ∈ l.set i none, o = none := by
  intro o ho
  rcases List.mem_or_eq_of_mem_set ho with h' | h'
  · exact h o h'
  · exact h'

theorem get?_set_none_preserves {l : List (Option γ)} {i j : Nat}
    (h : l.get? j = some none) : (l.set i none).get? j = some none := by
  by_cases hij : i = j
  · subst hij
    have hlt : i < l.length := by
      by_contra hge
      rw [List.get?_eq_none.mpr (by omega)] at h
      exact Option.noConfusion h
    rw [List.get?_set_eq_of_lt _ hlt]
  · rw [List.get?_set_ne _ _ hij]
    exact h

end Kit

section HeldKit

variable {α β : Type u} {f : α → β}

theorem heldAll_cons (x : WSt α β) (tl : List (WSt α β)) :
    heldAll f (x :: tl) = wHeld f x + heldAll f tl := by
  simp [heldAll]

theorem heldAll_set {ws : List (WSt α β)} {w : Nat} {old : WSt α β}
    (x : WSt α β) (h : ws.get? w = some old) :
    heldAll f (ws.set w x) + wHeld f old = heldAll f ws + wHeld f x := by
  induction ws generalizing w with
  | nil => simp at h
  | cons hd tl ih =>
    cases w with
    | zero =>
      have : hd = old := Option.some.inj h
      subst this
      simp only [List.set, heldAll_cons]
      abel
    | succ w' =>
      have h' : tl.get? w' = some old := h
      simp only [List.set, heldAll_cons]
      rw [add_assoc, ih h', ← add_assoc]

theorem heldAll_set_congr {ws : List (WSt α β)} {w : Nat} {old : WSt α β}
    (x : WSt α β) (h : ws.get? w = some old) (hx : wHeld f x = wHeld f old) :
    heldAll f (ws.set w x) = heldAll f ws := by
  have := heldAll_set (f := f) x h
  rw [hx] at this
  exact add_right_cancel this

theorem heldAll_eq_zero {ws : List (WSt α β)}
    (h : ∀ x ∈ ws, x = WSt.wdone) : heldAll f ws = 0 := by
  induction ws with
  | nil => rfl
  | cons hd tl ih =>
    have hhd : hd = WSt.wdone := h hd (by simp)
    rw [heldAll_cons, hhd, ih (fun x hx => h x (by simp [hx]))]
    rfl

theorem wHeld_idle : wHeld f (.idle : WSt α β) = 0 := rfl

theorem wHeld_obs (i : Nat) (v : Nat × α) :
    wHeld f (.obs i v : WSt α β) = 0 := rfl

theorem wHeld_hold (v : Nat × α) :
    wHeld f (.hold v : WSt α β) = {trP f v} := rfl

theorem wHeld_push (y : Nat × β) :
    wHeld f (.push y : WSt α β) = {y} := rfl

theorem wHeld_pobs (j : Nat) (y : Nat × β) :
    wHeld f (.pobs j y : WSt α β) = {y} := rfl

theorem wHeld_wdone : wHeld f (.wdone : WSt α β) = 0 := rfl

theorem exists_done_of_set {ws : List (WSt α β)} {w : Nat} {x : WSt α β}
    (hx : x ≠ WSt.wdone) (hex : ∃ u ∈ ws.set w x, u = WSt.wdone) :
    ∃ u ∈ ws, u = WSt.wdone := by
  obtain ⟨u, hu, hud⟩ := hex
  rcases List.mem_or_eq_of_mem_set hu with h' | h'
  · exact ⟨u, h', hud⟩
  · subst h'
    exact absurd hud hx

end HeldKit

/-! ## The inductive invariant -/

section InvTheorems

variable {α β : Type u}

theorem inv_init (cfg : Cfg α β) : Inv cfg (initSt cfg) := by
  refine ⟨?_, ?_, ?_, ?_, ?_, ?_, ?_, ?_, ?_, ?_, ?_, ?_, ?_, ?_, ?_, ?_, ?_⟩
  · have h1 : itemsOf (List.replicate (cfg.numWorkers + 1)
        (none : Option (Nat × α))) = 0 :=
      itemsOf_eq_zero (by simp)
    have h2 : heldAll cfg.transform
        (List.replicate cfg.numWorkers (.idle : WSt α β)) = 0 := by
      induction cfg.numWorkers with
      | zero => rfl
      | succ n ih => simpa [List.replicate_succ, heldAll_cons, wHeld_idle] using ih
    have h3 : itemsOf (List.replicate (cfg.numWorkers + 1)
        (none : Option (Nat × β))) = 0 :=
      itemsOf_eq_zero (by simp)
    simp [initSt, h1, h2, h3]
  · simp [initSt]
  · simp [initSt]
  · simp [initSt]
  · simp [initSt]
  · intro he
    simp [initSt] at he
  · intro hex
    obtain ⟨u, hu, hud⟩ := hex
    simp [initSt] at hu
    rcases hu with ⟨_, rfl⟩
    exact absurd hud (by intro h; exact WSt.noConfusion h)
  · intro hcpc
    exact absurd rfl hcpc
  · intro hcpc
    rcases hcpc with h | h | h <;> exact Coord.noConfusion h
  · intro hfin
    exact Coord.noConfusion hfin
  · intro hrun
    simp [initSt] at hrun
  · simp [initSt, itemsOf_eq_zero]
  · intro p hp
    rw [show itemsOf (initSt cfg).inSlots = 0 from itemsOf_eq_zero (by simp [initSt])] at hp
    simp at hp
  · simp [initSt]
  · intro p hp
    rw [show itemsOf (initSt cfg).inSlots = 0 from itemsOf_eq_zero (by simp [initSt])] at hp
    simp at hp
  · simp [initSt]
  · intro h
    rcases h with h | h | h <;> exact PPc.noConfusion h

/-- Preservation: every step keeps the invariant. -/
theorem inv_step {cfg : Cfg α β} {s s' : St α β}
    (hs : Inv cfg s) (hst : Step cfg s s') : Inv cfg s' := by
  cases hst with
  | pSkipFull i ne v hpc hslot =>
    exact { hs with
      eofPc := fun he => absurd hpc (hs.eofPc he i ne),
      sigEof := fun h => by rcases h with h | h | h <;> exact PPc.noConfusion h }
  | pPublish i ne a hpc hslot hsrc =>
    have hitems : itemsOf (s.inSlots.set i (some (s.produced.length, a))) =
        (s.produced.length, a) ::ₘ itemsOf s.inSlots :=
      itemsOf_set_some _ hslot
    refine { hs with
      conserve := ?_, prodIds := ?_, inLen := ?_, eofPc := ?_,
      doneDrained := ?_, inIds := ?_, freshIn := ?_, boundIn := ?_,
      boundTaken := ?_,
      sigEof := fun h => by rcases h with h | h | h <;> exact PPc.noConfusion h }
    · show Multiset.map (trP cfg.transform)
          (itemsOf (s.inSlots.set i (some (s.produced.length, a)))) + _ + _ + _ = _
      rw [hitems, Multiset.map_cons]
      have hc := hs.conserve
      show _ = ((((s.produced ++ [(s.produced.length, a)]).map
          (trP cfg.transform) : List (Nat × β)) : Multiset (Nat × β)))
      rw [List.map_append]
      show _ = (((s.produced.map (trP cfg.transform) : List (Nat × β)) :
          Multiset (Nat × β)) + ↑([(s.produced.length, a)].map (trP cfg.transform)))
      rw [← hc]
      simp only [List.map_cons, List.map_nil, ← Multiset.singleton_add,
        Multiset.coe_singleton]
      abel
    · show (s.produced ++ [(s.produced.length, a)]).map Prod.fst =
        List.range (s.produced ++ [(s.produced.length, a)]).length
      simp [List.map_append, hs.prodIds, List.range_succ]
    · show (s.inSlots.set i (some (s.produced.length, a))).length = _
      simp [List.length_set, hs.inLen]
    · exact fun he => absurd hpc (hs.eofPc he i ne)
    · exact fun hex => absurd hpc (hs.eofPc (hs.doneDrained hex).1 i ne)
    · show (Multiset.map Prod.fst
        (itemsOf (s.inSlots.set i (some (s.produced.length, a))))).Nodup
      rw [hitems, Multiset.map_cons, Multiset.nodup_cons]
      refine ⟨?_, hs.inIds⟩
      intro hmem
      obtain ⟨p, hp, hfst⟩ := Multiset.mem_map.1 hmem
      have := hs.boundIn p hp
      omega
    · intro p hp
      rw [hitems] at hp
      rcases Multiset.mem_cons.1 hp with h' | h'
    -- the new item has a fresh sequence number, never taken before
      · subst h'
        intro hmem
        have := hs.boundTaken _ hmem
        simp at this
      · exact hs.freshIn p h'
    · intro p hp
      rw [hitems] at hp
      show p.1 < (s.produced ++ [(s.produced.length, a)]).length
      rw [List.length_append]
      rcases Multiset.mem_cons.1 hp with h' | h'
      · subst h'
        simp
      · have := hs.boundIn p h'
        simp only [List.length_singleton]
        omega
    · intro k hk
      have := hs.boundTaken k hk
      show k < (s.produced ++ [(s.produced.length, a)]).length
      rw [List.length_append]
      simp only [List.length_singleton]
      omega
  | pEofSet i ne hpc hslot hsrc =>
    exact { hs with
      eofPc := fun _ _ _ h => PPc.noConfusion h,
      doneDrained := fun hex => ⟨rfl, (hs.doneDrained hex).2⟩,
      sigEof := fun _ => rfl }
  | pSigAll hpc =>
    exact { hs with
      eofPc := fun _ _ _ h => PPc.noConfusion h,
      sigEof := fun _ => hs.sigEof (Or.inl hpc) }
  | pReturn hpc =>
    exact { hs with
      eofPc := fun _ _ _ h => PPc.noConfusion h,
      sigEof := fun _ => hs.sigEof (Or.inr (Or.inl hpc)) }
  | pWrap i ne hpc hlen =>
    exact { hs with
      eofPc := fun he => absurd hpc (hs.eofPc he i ne),
      sigEof := fun h => by rcases h with h | h | h <;> exact PPc.noConfusion h }
  | wObserve w i v hw hslot =>
    exact { hs with
      conserve := by
        rw [heldAll_set_congr (WSt.obs i v) hw rfl]
        exact hs.conserve,
      wLen := by simp [List.length_set, hs.wLen],
      doneDrained := fun hex =>
        hs.doneDrained (exists_done_of_set (fun h => WSt.noConfusion h) hex),
      joinedDone := fun hcpc =>
        absurd (hs.joinedDone hcpc _ (List.get?_mem hw))
          (fun h => WSt.noConfusion h) }
  | wTakeOk w i v hw hslot =>
    have hitems : itemsOf s.inSlots = v ::ₘ itemsOf (s.inSlots.set i none) :=
      itemsOf_set_none hslot
    have hmemv : v ∈ itemsOf s.inSlots := get?_mem_itemsOf hslot
    have hheld : heldAll cfg.transform (s.workers.set w (.hold v)) =
        heldAll cfg.transform s.workers + {trP cfg.transform v} := by
      have h2 := heldAll_set (f := cfg.transform) (WSt.hold v) hw
      rw [wHeld_obs, wHeld_hold, add_zero] at h2
      exact h2
    have hIdsSplit : (Multiset.map Prod.fst (itemsOf s.inSlots)) =
        v.1 ::ₘ Multiset.map Prod.fst (itemsOf (s.inSlots.set i none)) := by
      rw [hitems, Multiset.map_cons]
    have hIds' : v.1 ∉ Multiset.map Prod.fst (itemsOf (s.inSlots.set i none)) ∧
        (Multiset.map Prod.fst (itemsOf (s.inSlots.set i none))).Nodup := by
      have h3 := hs.inIds
      rw [hIdsSplit, Multiset.nodup_cons] at h3
      exact h3
    refine { hs with
      conserve := ?_, inLen := ?_, wLen := ?_, doneDrained := ?_,
      joinedDone := ?_, inIds := hIds'.2, freshIn := ?_, takenNodup := ?_,
      boundIn := ?_, boundTaken := ?_ }
    · show Multiset.map (trP cfg.transform) (itemsOf (s.inSlots.set i none)) +
        heldAll cfg.transform (s.workers.set w (.hold v)) + _ + _ = _
      rw [hheld]
      have hc := hs.conserve
      rw [hitems, Multiset.map_cons] at hc
      rw [← hc]
      simp only [← Multiset.singleton_add]
      abel
    · simp [List.length_set, hs.inLen]
    · simp [List.length_set, hs.wLen]
    · intro hex
      have hdone := hs.doneDrained
        (exists_done_of_set (fun h => WSt.noConfusion h) hex)
      exact absurd (hdone.2 _ (List.get?_mem hslot)) (by simp)
    · intro hcpc
      exact absurd (hs.joinedDone hcpc _ (List.get?_mem hw))
        (fun h => WSt.noConfusion h)
    · intro p hp
      have hpIn : p ∈ itemsOf s.inSlots := mem_itemsOf_set_none hp
      have h4 := hs.freshIn p hpIn
      have hne : p.1 ≠ v.1 := by
        intro hpe
        exact hIds'.1 (hpe ▸ Multiset.mem_map_of_mem Prod.fst hp)
      intro hmem
      rw [List.map_append] at hmem
      rcases List.mem_append.1 hmem with h' | h'
      · exact h4 h'
      · simp at h'
        exact hne h'
    · rw [List.map_append]
      have hv : v.1 ∉ s.takenBy.map Prod.fst := hs.freshIn v hmemv
      refine hs.takenNodup.append (by simp) ?_
      intro k hk hk'
      simp at hk'
      subst hk'
      exact hv hk
    · intro p hp
      exact hs.boundIn p (mem_itemsOf_set_none hp)
    · intro k hk
      rw [List.map_append] at hk
      rcases List.mem_append.1 hk with h' | h'
      · exact hs.boundTaken k h'
      · simp at h'
        subst h'
        exact hs.boundIn v hmemv
  | wTakeFail w i v hw hslot =>
    exact { hs with
      conserve := by
        rw [heldAll_set_congr WSt.idle hw rfl]
        exact hs.conserve,
      wLen := by simp [List.length_set, hs.wLen],
      doneDrained := fun hex =>
        hs.doneDrained (exists_done_of_set (fun h => WSt.noConfusion h) hex),
      joinedDone := fun hcpc =>
        absurd (hs.joinedDone hcpc _ (List.get?_mem hw))
          (fun h => WSt.noConfusion h) }
  | wEofStop w hw heof hempty =>
    exact { hs with
      conserve := by
        rw [heldAll_set_congr WSt.wdone hw rfl]
        exact hs.conserve,
      wLen := by simp [List.length_set, hs.wLen],
      doneDrained := fun _ => ⟨heof, hempty⟩,
      joinedDone := fun hcpc =>
        absurd (hs.joinedDone hcpc _ (List.get?_mem hw))
          (fun h => WSt.noConfusion h) }
  | wTransform w k a hw =>
    exact { hs with
      conserve := by
        rw [heldAll_set_congr (WSt.push (k, cfg.transform a)) hw rfl]
        exact hs.conserve,
      wLen := by simp [List.length_set, hs.wLen],
      doneDrained := fun hex =>
        hs.doneDrained (exists_done_of_set (fun h => WSt.noConfusion h) hex),
      joinedDone := fun hcpc =>
        absurd (hs.joinedDone hcpc _ (List.get?_mem hw))
          (fun h => WSt.noConfusion h) }
  | wPushObserve w j y hw hslot =>
    exact { hs with
      conserve := by
        rw [heldAll_set_congr (WSt.pobs j y) hw rfl]
        exact hs.conserve,
      wLen := by simp [List.length_set, hs.wLen],
      doneDrained := fun hex =>
        hs.doneDrained (exists_done_of_set (fun h => WSt.noConfusion h) hex),
      joinedDone := fun hcpc =>
        absurd (hs.joinedDone hcpc _ (List.get?_mem hw))
          (fun h => WSt.noConfusion h) }
  | wPushOk w j y hw hslot =>
    have hout : itemsOf (s.outSlots.set j (some y)) = y ::ₘ itemsOf s.outSlots :=
      itemsOf_set_some y hslot
    have hheld : heldAll cfg.transform (s.workers.set w .idle) + {y} =
        heldAll cfg.transform s.workers := by
      have h2 := heldAll_set (f := cfg.transform) WSt.idle hw
      rw [wHeld_pobs, wHeld_idle, add_zero] at h2
      exact h2
    refine { hs with
      conserve := ?_, outLen := ?_, wLen := ?_, doneDrained := ?_,
      joinedDone := ?_, idleKept := ?_ }
    · show Multiset.map (trP cfg.transform) (itemsOf s.inSlots) +
        heldAll cfg.transform (s.workers.set w .idle) +
        itemsOf (s.outSlots.set j (some y)) + _ = _
      rw [hout]
      have hc := hs.conserve
      rw [← hheld] at hc
      rw [← hc]
      simp only [← Multiset.singleton_add]
      abel
    · simp [List.length_set, hs.outLen]
    · simp [List.length_set, hs.wLen]
    · exact fun hex =>
        hs.doneDrained (exists_done_of_set (fun h => WSt.noConfusion h) hex)
    · intro hcpc
      exact absurd (hs.joinedDone hcpc _ (List.get?_mem hw))
        (fun h => WSt.noConfusion h)
    · intro hcpc
      have hne : s.cpc ≠ Coord.running := by
        rcases hcpc with h | h | h <;> (rw [h]; intro h'; exact Coord.noConfusion h')
      exact absurd (hs.joinedDone hne _ (List.get?_mem hw))
        (fun h => WSt.noConfusion h)
  | wPushFail w j y hw hslot =>
    exact { hs with
      conserve := by
        rw [heldAll_set_congr (WSt.push y) hw rfl]
        exact hs.conserve,
      wLen := by simp [List.length_set, hs.wLen],
      doneDrained := fun hex =>
        hs.doneDrained (exists_done_of_set (fun h => WSt.noConfusion h) hex),
      joinedDone := fun hcpc =>
        absurd (hs.joinedDone hcpc _ (List.get?_mem hw))
          (fun h => WSt.noConfusion h) }
  | cEnterScan ntd hc hcond =>
    exact { hs with
      finCons := fun hfin =>
        absurd (hc.symm.trans (hs.finCons hfin)) (fun h => CSt.noConfusion h) }
  | cStop hc hrun =>
    exact { hs with finCons := fun _ => rfl }
  | cSkip i fnd hc hslot =>
    exact { hs with
      finCons := fun hfin =>
        absurd (hc.symm.trans (hs.finCons hfin)) (fun h => CSt.noConfusion h) }
  | cTake i fnd y hc hslot =>
    have hout : itemsOf s.outSlots = y ::ₘ itemsOf (s.outSlots.set i none) :=
      itemsOf_set_none hslot
    refine { hs with
      conserve := ?_, outLen := ?_, idleKept := ?_, finCons := ?_ }
    · show Multiset.map (trP cfg.transform) (itemsOf s.inSlots) +
        heldAll cfg.transform s.workers + itemsOf (s.outSlots.set i none) +
        ((s.delivered ++ [y] : List (Nat × β)) : Multiset (Nat × β)) = _
      have hc2 := hs.conserve
      rw [hout] at hc2
      rw [show ((s.delivered ++ [y] : List (Nat × β)) : Multiset (Nat × β)) =
        (s.delivered : Multiset (Nat × β)) + {y} from rfl]
      rw [← hc2]
      simp only [← Multiset.singleton_add]
      abel
    · simp [List.length_set, hs.outLen]
    · exact fun hcpc => allNone_set_none (hs.idleKept hcpc)
    · exact fun hfin =>
        absurd (hc.symm.trans (hs.finCons hfin)) (fun h => CSt.noConfusion h)
  | cScanEnd i fnd hc hlen =>
    exact { hs with
      finCons := fun hfin =>
        absurd (hc.symm.trans (hs.finCons hfin)) (fun h => CSt.noConfusion h) }
  | coJoinWorkers hcpc hall =>
    exact { hs with
      joinedDone := fun _ => hall,
      idleKept := fun hc2 => by
        rcases hc2 with h | h | h <;> exact Coord.noConfusion h,
      finCons := fun hfin => Coord.noConfusion hfin,
      runFlag := fun hrun => by
        rcases hs.runFlag hrun with h | h <;>
          (rw [hcpc] at h; exact Coord.noConfusion h) }
  | coSeeIdle hcpc hempty =>
    exact { hs with
      joinedDone := fun _ =>
        hs.joinedDone (by rw [hcpc]; intro h; exact Coord.noConfusion h),
      idleKept := fun _ => hempty,
      finCons := fun hfin => Coord.noConfusion hfin,
      runFlag := fun hrun => by
        rcases hs.runFlag hrun with h | h <;>
          (rw [hcpc] at h; exact Coord.noConfusion h) }
  | coShutDown hcpc =>
    exact { hs with
      joinedDone := fun _ =>
        hs.joinedDone (by rw [hcpc]; intro h; exact Coord.noConfusion h),
      idleKept := fun _ => hs.idleKept (Or.inl hcpc),
      finCons := fun hfin => Coord.noConfusion hfin,
      runFlag := fun _ => Or.inl rfl }
  | coJoinConsumer hcpc hc =>
    exact { hs with
      joinedDone := fun _ =>
        hs.joinedDone (by rw [hcpc]; intro h; exact Coord.noConfusion h),
      idleKept := fun _ => hs.idleKept (Or.inr (Or.inl hcpc)),
      finCons := fun _ => hc,
      runFlag := fun _ => Or.inr rfl }

/-- Every reachable state satisfies the invariant. -/
theorem inv_reach {cfg : Cfg α β} {s : St α β} (h : Reach cfg s) : Inv cfg s := by
  induction h with
  | init => exact inv_init cfg
  | step _ hst ih => exact inv_step ih hst

/-- The only step that turns a worker from idle into returned is the getItem
EOF path, and it fires only with eof set and the input buffer fully
drained. -/
theorem step_to_wdone {cfg : Cfg α β} {s s' : St α β} {w : Nat}
    (hst : Step cfg s s') (h1 : s.workers.get? w = some WSt.idle)
    (h2 : s'.workers.get? w = some WSt.wdone) :
    s.eof = true ∧ ∀ o ∈ s.inSlots, o = none := by
  cases hst
  case wEofStop w' hw heof hempty => exact ⟨heof, hempty⟩
  all_goals first
    | exact absurd (Option.some.inj (h1.symm.trans h2)) (fun h => WSt.noConfusion h)
    | (rcases get?_set_cases h2 with h' | h'
       · exact WSt.noConfusion h'
       · exact absurd (Option.some.inj (h1.symm.trans h')) (fun h => WSt.noConfusion h))

end InvTheorems

/-! ## The two concrete runs -/

theorem reachA9 : Reach cfgA stA9 := by
  have h0 : Reach cfgA stA0 := Reach.init
  have h1 : Reach cfgA stA1 := h0.step (Step.pEofSet stA0 0 true rfl rfl rfl)
  have h2 : Reach cfgA stA2 := h1.step (Step.wEofStop stA1 0 rfl rfl (by decide))
  have h3 : Reach cfgA stA3 := h2.step (Step.coJoinWorkers stA2 rfl (by decide))
  have h4 : Reach cfgA stA4 := h3.step (Step.coSeeIdle stA3 rfl (by decide))
  have h5 : Reach cfgA stA5 := h4.step (Step.coShutDown stA4 rfl)
  have h6 : Reach cfgA stA6 := h5.step (Step.cEnterScan stA5 false rfl (Or.inr rfl))
  have h7 : Reach cfgA stA7 := h6.step (Step.cSkip stA6 0 false rfl rfl)
  have h8 : Reach cfgA stA8 := h7.step (Step.cSkip stA7 1 false rfl rfl)
  exact h8.step (Step.cScanEnd stA8 2 false rfl (by decide))

theorem reachA : Reach cfgA stA11 := by
  have h10 : Reach cfgA stA10 := reachA9.step (Step.cStop stA9 rfl rfl)
  exact h10.step (Step.coJoinConsumer stA10 rfl rfl)

theorem reachB2 : Reach cfgB stB2 := by
  have h0 : Reach cfgB stB0 := Reach.init
  have h1 : Reach cfgB stB1 := h0.step (Step.pPublish stB0 0 true 5 rfl rfl rfl)
  exact h1.step (Step.pEofSet stB1 1 false rfl rfl rfl)

theorem reachB : Reach cfgB stB23 := by
  have h2 : Reach cfgB stB2 := reachB2
  have h3 : Reach cfgB stB3 := h2.step (Step.pSigAll stB2 rfl)
  have h4 : Reach cfgB stB4 := h3.step (Step.pReturn stB3 rfl)
  have h5 : Reach cfgB stB5 := h4.step (Step.wObserve stB4 0 0 (0, 5) rfl rfl)
  have h6 : Reach cfgB stB6 := h5.step (Step.wTakeOk stB5 0 0 (0, 5) rfl rfl)
  have h7 : Reach cfgB stB7 := h6.step (Step.wTransform stB6 0 0 5 rfl)
  have h8 : Reach cfgB stB8 := h7.step (Step.wPushObserve stB7 0 0 (0, 25) rfl rfl)
  have h9 : Reach cfgB stB9 := h8.step (Step.wPushOk stB8 0 0 (0, 25) rfl rfl)
  have h10 : Reach cfgB stB10 := h9.step (Step.wEofStop stB9 0 rfl rfl (by decide))
  have h11 : Reach cfgB stB11 := h10.step (Step.coJoinWorkers stB10 rfl (by decide))
  have h12 : Reach cfgB stB12 :=
    h11.step (Step.cEnterScan stB11 false rfl (Or.inr rfl))
  have h13 : Reach cfgB stB13 := h12.step (Step.cTake stB12 0 false (0, 25) rfl rfl)
  have h14 : Reach cfgB stB14 := h13.step (Step.cSkip stB13 1 true rfl rfl)
  have h15 : Reach cfgB stB15 := h14.step (Step.cScanEnd stB14 2 true rfl (by decide))
  have h16 : Reach cfgB stB16 := h15.step (Step.coSeeIdle stB15 rfl (by decide))
  have h17 : Reach cfgB stB17 := h16.step (Step.coShutDown stB16 rfl)
  have h18 : Reach cfgB stB18 :=
    h17.step (Step.cEnterScan stB17 false rfl (Or.inr rfl))
  have h19 : Reach cfgB stB19 := h18.step (Step.cSkip stB18 0 false rfl rfl)
  have h20 : Reach cfgB stB20 := h19.step (Step.cSkip stB19 1 false rfl rfl)
  have h21 : Reach cfgB stB21 :=
    h20.step (Step.cScanEnd stB20 2 false rfl (by decide))
  have h22 : Reach cfgB stB22 := h21.step (Step.cStop stB21 rfl rfl)
  exact h22.step (Step.coJoinConsumer stB22 rfl rfl)

/-! ## Pure slot scan lemmas -/

section PureSlotTheorems

variable {γ : Type u}

theorem scanTake_none_iff (slots : List (Option γ)) :
    scanTake slots = none ↔ ∀ o ∈ slots, o = none := by
  induction slots with
  | nil => simp [scanTake]
  | cons hd tl ih =>
    cases hd with
    | some x => simp [scanTake]
    | none =>
      cases h : scanTake tl with
      | none => simp [scanTake, h, ← ih, h]
      | some p => simp [scanTake, h, ← ih, h]

theorem scanTake_some_spec {slots : List (Option γ)} {x : γ}
    {slots' : List (Option γ)} (h : scanTake slots = some (x, slots')) :
    ∃ i, slots.get? i = some (some x) ∧ slots' = slots.set i none ∧
      ∀ j < i, slots.get? j = some none := by
  induction slots generalizing slots' with
  | nil => simp [scanTake] at h
  | cons hd tl ih =>
    cases hd with
    | some y =>
      refine ⟨0, ?_⟩
      simp [scanTake] at h
      simp [h.1, h.2, List.set]
    | none =>
      cases htl : scanTake tl with
      | none => simp [scanTake, htl] at h
      | some p =>
        obtain ⟨y, rest'⟩ := p
        simp [scanTake, htl] at h
        obtain ⟨rfl, rfl⟩ := h
        obtain ⟨i, h1, h2, h3⟩ := ih htl
        refine ⟨i + 1, by simpa using h1, by simp [List.set, h2], ?_⟩
        intro j hj
        cases j with
        | zero => simp
        | succ j' => simpa using h3 j' (by omega)

end PureSlotTheorems

/-! ## ReadReader lemmas -/

section ReaderTheorems

variable {R : Type u} {E : Type v}

theorem readerCall_err (firstReads : Nat) (e : E) (st : Nat) :
    readerCall (R := R) firstReads (.err e) st = (.raised e st, st) := rfl

theorem readerRunList_err (firstReads : Nat) (e : E)
    (rest : List (ReadRes R E)) (st : Nat) :
    readerRunList firstReads (.err e :: rest) st = ([], st, .raisedEnd e st) := rfl

/-- In a run that ends in an exception, the logged counter is the starting
counter plus the total size of the batches delivered by the prior successful
invocations, and the counter is unchanged by the failing invocation. -/
theorem readerRunList_raised_logged (firstReads : Nat)
    (results : List (ReadRes R E)) (st0 : Nat) :
    ∀ ds stEnd e lg,
      readerRunList firstReads results st0 = (ds, stEnd, .raisedEnd e lg) →
      lg = st0 + (ds.map List.length).sum ∧ stEnd = lg := by
  induction results generalizing st0 with
  | nil => intro ds stEnd e lg h; simp [readerRunList] at h
  | cons res rest ih =>
    intro ds stEnd e lg h
    cases res with
    | err e' =>
      simp [readerRunList, readerCall] at h
      obtain ⟨rfl, rfl, rfl, rfl⟩ := h
      simp
    | ok batch =>
      by_cases hb : batch.isEmpty ∨ firstReads < st0 + batch.length
      · simp only [readerRunList, readerCall, if_pos hb, Prod.mk.injEq] at h
        exact absurd h.2.2 (by simp)
      · simp only [readerRunList, readerCall, if_neg hb] at h
        rcases hrec : readerRunList firstReads rest (st0 + batch.length) with
          ⟨ds', st'', en⟩
        rw [hrec] at h
        simp only [Prod.mk.injEq] at h
        obtain ⟨hds, hst, hen⟩ := h
        subst hds; subst hst; subst hen
        obtain ⟨hlg, hend⟩ := ih (st0 + batch.length) ds' st'' e lg hrec
        constructor
        · simp only [List.map_cons, List.sum_cons]
          omega
        · exact hend

/-- Once the capped source has returned EOF the trace freezes. -/
theorem readerTrace_frozen (cap r : Nat) {k d st : Nat}
    (h : readerTrace cap r k = (d, st, true)) :
    ∀ m, k ≤ m → readerTrace cap r m = (d, st, true) := by
  intro m hm
  induction m with
  | zero =>
    have hk : k = 0 := Nat.le_zero.mp hm
    exact hk ▸ h
  | succ m ih =>
    by_cases hk : k ≤ m
    · have hfix := ih hk
      simp [readerTrace, hfix]
    · have hk1 : k = m + 1 := by omega
      exact hk1 ▸ h

/-- While the cumulative count stays at or below the cap, every call
delivers its full batch of r reads. -/
theorem readerTrace_until (cap r : Nat) (hr : 0 < r) :
    ∀ j, j ≤ cap / r → readerTrace cap r j = (j * r, j * r, false) := by
  intro j
  induction j with
  | zero => intro _; simp [readerTrace]
  | succ j ih =>
    intro hj
    have hrec := ih (Nat.le_of_succ_le hj)
    have hne : (List.replicate r (0 : Nat)).isEmpty = false := by
      cases r with
      | zero => exact absurd hr (lt_irrefl 0)
      | succ m => rfl
    have hle : j * r + r ≤ cap := by
      have h1 : (j + 1) * r ≤ (cap / r) * r := Nat.mul_le_mul_right r hj
      have h2 : (cap / r) * r ≤ cap := Nat.div_mul_le_self cap r
      have h3 : (j + 1) * r = j * r + r := Nat.succ_mul j r
      omega
    have hif : ¬(r = 0 ∨ cap < j * r + r) := by
      intro h
      rcases h with h | h
      · omega
      · omega
    simp only [readerTrace, hrec]
    simp [readerCall, List.length_replicate, hif, Nat.succ_mul]

/-- The first call that would push the count past the cap returns EOF, its
batch is discarded, and the totals freeze: r * (cap / r) reads were
delivered. -/
theorem readerTrace_past_cap (cap r : Nat) (hr : 0 < r) :
    ∀ k, cap / r + 1 ≤ k →
      readerTrace cap r k = ((cap / r) * r, (cap / r) * r + r, true) := by
  have hq := readerTrace_until cap r hr (cap / r) (le_refl _)
  have hne : (List.replicate r (0 : Nat)).isEmpty = false := by
    cases r with
    | zero => exact absurd hr (lt_irrefl 0)
    | succ m => rfl
  have hgt : cap < (cap / r) * r + r := by
    have h2 : cap % r < r := Nat.mod_lt cap hr
    calc cap = r * (cap / r) + cap % r := (Nat.div_add_mod cap r).symm
      _ < r * (cap / r) + r := Nat.add_lt_add_left h2 _
      _ = (cap / r) * r + r := by rw [Nat.mul_comm]
  have hstep : readerTrace cap r (cap / r + 1) =
      ((cap / r) * r, (cap / r) * r + r, true) := by
    simp only [readerTrace, hq]
    simp [readerCall, List.length_replicate, hne, hgt]
  intro k hk
  exact readerTrace_frozen cap r hstep k hk

end ReaderTheorems

/-! ## Claim theorems -/

section Claims

variable {α β : Type u}

/-- C1: for every run of the pipeline that completes without error (the
coordinator reaches the end of waitForFinish), the multiset of items
delivered to the sink equals the multiset of items returned by the source,
mapped elementwise through the transformer; no item deposited into either
slot array is dropped. -/
theorem C1_conservation (cfg : Cfg α β) (s : St α β)
    (hw : 0 < cfg.numWorkers) (hr : Reach cfg s) (hfin : s.cpc = Coord.fin) :
    (s.delivered : Multiset (Nat × β)) =
      ((s.produced.map (trP cfg.transform) : List (Nat × β)) :
        Multiset (Nat × β)) := by
  have inv := inv_reach hr
  have hne : s.cpc ≠ Coord.running := by
    rw [hfin]; intro h; exact Coord.noConfusion h
  have hall := inv.joinedDone hne
  have hpos : 0 < s.workers.length := by rw [inv.wLen]; exact hw
  obtain ⟨u, hu⟩ := List.exists_mem_of_length_pos hpos
  have hdone := inv.doneDrained ⟨u, hu, hall u hu⟩
  have hin : itemsOf s.inSlots = 0 := itemsOf_eq_zero hdone.2
  have hout : itemsOf s.outSlots = 0 :=
    itemsOf_eq_zero (inv.idleKept (Or.inr (Or.inr hfin)))
  have hheld : heldAll cfg.transform s.workers = 0 := heldAll_eq_zero hall
  have hc := inv.conserve
  rw [hin, hout, hheld] at hc
  simpa using hc

/-- C1 witness: the one-item run B reaches the end of waitForFinish having
delivered exactly the squared item. -/
theorem C1_conservation_witness :
    0 < cfgB.numWorkers ∧ Reach cfgB stB23 ∧ stB23.cpc = Coord.fin ∧
      (stB23.delivered : Multiset (Nat × Nat)) =
        ((stB23.produced.map (trP cfgB.transform) : List (Nat × Nat)) :
          Multiset (Nat × Nat)) :=
  ⟨Nat.one_pos, reachB, rfl, C1_conservation cfgB stB23 Nat.one_pos reachB rfl⟩

/-- C2: one getItem round returns none-with-EOF exactly when the pre-scan
load of eof was true and the scan found every slot empty; when the scan
finds an item the round returns it with the slot cleared (ownership moves to
the caller) and earlier slots were empty; otherwise it waits and retries.
At the pipeline level, the step that makes a worker return is possible only
with eof set and the input buffer completely drained, so no published item
is ever skipped. -/
theorem C2_getItem_contract :
    (∀ (γ : Type u) (eof : Bool) (slots : List (Option γ)),
      (getItemRound eof slots = GetItemRes.eofNone ↔
        eof = true ∧ ∀ o ∈ slots, o = none) ∧
      (∀ x slots', getItemRound eof slots = GetItemRes.got x slots' →
        ∃ i, slots.get? i = some (some x) ∧ slots' = slots.set i none ∧
          ∀ j < i, slots.get? j = some none) ∧
      (getItemRound eof slots = GetItemRes.waitRetry ↔
        eof = false ∧ ∀ o ∈ slots, o = none)) ∧
    (∀ (α β : Type u) (cfg : Cfg α β) (s s' : St α β) (w : Nat),
      Step cfg s s' → s.workers.get? w = some WSt.idle →
      s'.workers.get? w = some WSt.wdone →
      s.eof = true ∧ ∀ o ∈ s.inSlots, o = none) := by
  constructor
  · intro γ eof slots
    refine ⟨?_, ?_, ?_⟩
    · constructor
      · intro h
        cases hscan : scanTake slots with
        | some p =>
          obtain ⟨x, s2⟩ := p
          simp only [getItemRound, hscan] at h
          exact GetItemRes.noConfusion h
        | none =>
          have hall := (scanTake_none_iff slots).mp hscan
          simp only [getItemRound, hscan] at h
          cases eof with
          | true => exact ⟨rfl, hall⟩
          | false => simp at h
      · rintro ⟨heof, hall⟩
        have hscan := (scanTake_none_iff slots).mpr hall
        simp [getItemRound, hscan, heof]
    · intro x s2 h
      cases hscan : scanTake slots with
      | some p =>
        obtain ⟨x', s3⟩ := p
        simp only [getItemRound, hscan] at h
        injection h with hx hsl
        subst hx; subst hsl
        exact scanTake_some_spec hscan
      | none =>
        simp only [getItemRound, hscan] at h
        cases eof <;> simp at h
    · constructor
      · intro h
        cases hscan : scanTake slots with
        | some p =>
          obtain ⟨x, s2⟩ := p
          simp only [getItemRound, hscan] at h
          exact GetItemRes.noConfusion h
        | none =>
          have hall := (scanTake_none_iff slots).mp hscan
          simp only [getItemRound, hscan] at h
          cases eof with
          | true => simp at h
          | false => exact ⟨rfl, hall⟩
      · rintro ⟨heof, hall⟩
        have hscan := (scanTake_none_iff slots).mpr hall
        simp [getItemRound, hscan, heof]
  · intro α β cfg s s' w hst h1 h2
    exact step_to_wdone hst h1 h2

/-- C3 counterexample: in run A the coordinator completes waitForFinish
(cpc = fin: worker and consumer threads joined) while the producer thread is
still alive, stopped between its eof store and its return statement;
waitForFinish never joins the producer thread. -/
theorem C3_counterexample :
    Reach cfgA stA11 ∧ stA11.cpc = Coord.fin ∧ ¬stA11.ppc = PPc.pdone :=
  ⟨reachA, rfl, by decide⟩

/-- C3 (amended): waitForFinish joins every worker thread, spins until the
consumer is idle, then calls consumer shutdown which joins the consumer
thread; after it returns every worker has terminated and been joined, the
consumer thread has terminated and been joined, eof is set and both slot
arrays are empty.  The producer thread is not joined by waitForFinish (it is
joined in the Produce destructor) and may still be running its return
path. -/
theorem C3_waitForFinish (cfg : Cfg α β) (s : St α β)
    (hw : 0 < cfg.numWorkers) (hr : Reach cfg s) (hfin : s.cpc = Coord.fin) :
    (∀ u ∈ s.workers, u = WSt.wdone) ∧ s.cons = CSt.cdone ∧ s.eof = true ∧
      produceIdle s.eof s.inSlots = true ∧ reduceIdle s.outSlots = true := by
  have inv := inv_reach hr
  have hne : s.cpc ≠ Coord.running := by
    rw [hfin]; intro h; exact Coord.noConfusion h
  have hall := inv.joinedDone hne
  have hpos : 0 < s.workers.length := by rw [inv.wLen]; exact hw
  obtain ⟨u, hu⟩ := List.exists_mem_of_length_pos hpos
  have hdone := inv.doneDrained ⟨u, hu, hall u hu⟩
  have hinAll : s.inSlots.all Option.isNone = true := by
    rw [List.all_eq_true]
    intro o ho
    rw [hdone.2 o ho]; rfl
  have houtAll : s.outSlots.all Option.isNone = true := by
    rw [List.all_eq_true]
    intro o ho
    rw [inv.idleKept (Or.inr (Or.inr hfin)) o ho]; rfl
  refine ⟨hall, inv.finCons hfin, hdone.1, ?_, houtAll⟩
  simp [produceIdle, hdone.1, hinAll]

/-- C3 witness: run B ends with all threads but the producer joined and both
buffers idle. -/
theorem C3_waitForFinish_witness :
    0 < cfgB.numWorkers ∧ Reach cfgB stB23 ∧ stB23.cpc = Coord.fin ∧
      ((∀ u ∈ stB23.workers, u = WSt.wdone) ∧ stB23.cons = CSt.cdone ∧
        stB23.eof = true ∧ produceIdle stB23.eof stB23.inSlots = true ∧
        reduceIdle stB23.outSlots = true) :=
  ⟨Nat.one_pos, reachB, rfl, C3_waitForFinish cfgB stB23 Nat.one_pos reachB rfl⟩

/-- C4: when the source reports end of input, the producer first stores eof
(without publishing or signalling in that step), then in its next step
signals the item-available semaphore once per input slot (K = numWorkers + 1
slots), then returns from the thread; and once eof is set no step ever
publishes into an empty input slot again (invariant I3). -/
theorem C4_eof_protocol (cfg : Cfg α β) (s s' : St α β)
    (hr : Reach cfg s) (hst : Step cfg s s') :
    (s.eof = false → s'.eof = true →
      s'.ppc = PPc.sigK ∧ s'.inSlots = s.inSlots ∧
        s'.readAvail = s.readAvail) ∧
    (s.ppc = PPc.sigK → s'.ppc ≠ PPc.sigK →
      s.eof = true ∧ s'.ppc = PPc.ret ∧
        s'.readAvail = s.readAvail + s.inSlots.length ∧
        s.inSlots.length = cfg.numWorkers + 1) ∧
    (s.ppc = PPc.ret → s'.ppc ≠ PPc.ret → s'.ppc = PPc.pdone) ∧
    (s.eof = true → ∀ i, s.inSlots.get? i = some none →
      s'.inSlots.get? i = some none) := by
  have inv := inv_reach hr
  refine ⟨?_, ?_, ?_, ?_⟩
  · intro h1 h2
    cases hst
    case pEofSet i ne hpc hslot hsrc => exact ⟨rfl, rfl, rfl⟩
    all_goals exact Bool.noConfusion (h1.symm.trans h2)
  · intro h1 h2
    cases hst
    case pSigAll hpc => exact ⟨inv.sigEof (Or.inl hpc), rfl, rfl, inv.inLen⟩
    case pSkipFull i ne v hpc hslot => exact PPc.noConfusion (hpc.symm.trans h1)
    case pPublish i ne a hpc hslot hsrc =>
      exact PPc.noConfusion (hpc.symm.trans h1)
    case pEofSet i ne hpc hslot hsrc => exact PPc.noConfusion (hpc.symm.trans h1)
    case pReturn hpc => exact PPc.noConfusion (hpc.symm.trans h1)
    case pWrap i ne hpc hlen => exact PPc.noConfusion (hpc.symm.trans h1)
    all_goals exact absurd h1 h2
  · intro h1 h2
    cases hst
    case pReturn hpc => exact rfl
    case pSkipFull i ne v hpc hslot => exact PPc.noConfusion (hpc.symm.trans h1)
    case pPublish i ne a hpc hslot hsrc =>
      exact PPc.noConfusion (hpc.symm.trans h1)
    case pEofSet i ne hpc hslot hsrc => exact PPc.noConfusion (hpc.symm.trans h1)
    case pSigAll hpc => exact PPc.noConfusion (hpc.symm.trans h1)
    case pWrap i ne hpc hlen => exact PPc.noConfusion (hpc.symm.trans h1)
    all_goals exact absurd h1 h2
  · intro h1 i hi
    cases hst
    case pPublish i' ne a hpc hslot hsrc => exact absurd hpc (inv.eofPc h1 i' ne)
    case wTakeOk w i' v hw hslot => exact get?_set_none_preserves hi
    all_goals exact hi

/-- C4 witness: in run B the producer has just stored eof (state stB2); its
next step signals once per slot and moves to the return statement. -/
theorem C4_eof_protocol_witness :
    (stB2.eof = false → stB3.eof = true →
      stB3.ppc = PPc.sigK ∧ stB3.inSlots = stB2.inSlots ∧
        stB3.readAvail = stB2.readAvail) ∧
    (stB2.ppc = PPc.sigK → stB3.ppc ≠ PPc.sigK →
      stB2.eof = true ∧ stB3.ppc = PPc.ret ∧
        stB3.readAvail = stB2.readAvail + stB2.inSlots.length ∧
        stB2.inSlots.length = cfgB.numWorkers + 1) ∧
    (stB2.ppc = PPc.ret → stB3.ppc ≠ PPc.ret → stB3.ppc = PPc.pdone) ∧
    (stB2.eof = true → ∀ i, stB2.inSlots.get? i = some none →
      stB3.inSlots.get? i = some none) :=
  C4_eof_protocol cfgB stB2 stB3 reachB2 (Step.pSigAll stB2 rfl)

/-- C5: the consumer loops while run is true or the previous scan found at
least one item; the step that terminates the consumer thread requires run
cleared and a preceding complete scan that withdrew nothing (the loop
condition evaluates to false), and at that moment every output slot is
empty; and the loop-head flag can only report an empty previous scan after a
scan that ran over every slot without finding anything. -/
theorem C5_consumer_loop (cfg : Cfg α β) (s s' : St α β)
    (hr : Reach cfg s) (hst : Step cfg s s') :
    (s.cons ≠ CSt.cdone → s'.cons = CSt.cdone →
      s.run = false ∧ s.cons = CSt.head true ∧
        consumerLoopCond s.run true = false ∧ ∀ o ∈ s.outSlots, o = none) ∧
    (∀ ntd, s'.cons = CSt.head ntd → s.cons = CSt.head ntd ∨
      ∃ i fnd, s.cons = CSt.scan i fnd ∧ s.outSlots.length ≤ i ∧
        ntd = !fnd) := by
  have inv := inv_reach hr
  constructor
  · intro hnot hdone
    cases hst
    case cStop hc hrun =>
      refine ⟨hrun, hc, by rw [hrun]; rfl, ?_⟩
      rcases inv.runFlag hrun with h | h
      · exact inv.idleKept (Or.inr (Or.inl h))
      · exact inv.idleKept (Or.inr (Or.inr h))
    case cEnterScan ntd hc hcond => exact CSt.noConfusion hdone
    case cSkip i fnd hc hslot => exact CSt.noConfusion hdone
    case cTake i fnd y hc hslot => exact CSt.noConfusion hdone
    case cScanEnd i fnd hc hlen => exact CSt.noConfusion hdone
    all_goals exact absurd hdone hnot
  · intro ntd hhead
    cases hst
    case cScanEnd i fnd hc hlen =>
      injection hhead with h
      exact Or.inr ⟨i, fnd, hc, hlen, h.symm⟩
    case cEnterScan ntd' hc hcond => exact CSt.noConfusion hhead
    case cStop hc hrun => exact CSt.noConfusion hhead
    case cSkip i fnd hc hslot => exact CSt.noConfusion hhead
    case cTake i fnd y hc hslot => exact CSt.noConfusion hhead
    all_goals exact Or.inl hhead

/-- C5 witness: in run A the consumer terminates out of state stA9, where
run is cleared and the preceding scan found every slot empty. -/
theorem C5_consumer_loop_witness :
    ((stA9.cons ≠ CSt.cdone → stA10.cons = CSt.cdone →
      stA9.run = false ∧ stA9.cons = CSt.head true ∧
        consumerLoopCond stA9.run true = false ∧
        ∀ o ∈ stA9.outSlots, o = none) ∧
     (∀ ntd, stA10.cons = CSt.head ntd → stA9.cons = CSt.head ntd ∨
       ∃ i fnd, stA9.cons = CSt.scan i fnd ∧ stA9.outSlots.length ≤ i ∧
         ntd = !fnd)) :=
  C5_consumer_loop cfgA stA9 stA10 reachA9 (Step.cStop stA9 rfl rfl)

/-- C6: handoff is mutually exclusive.  The takenBy log records every
successful input compare-and-swap; in every reachable state its item
sequence numbers are distinct, so at most one worker ever obtains a given
item; the delivered sequence numbers are distinct, so each item reaches the
sink at most once; and the delivered multiset is contained in the
transformer image of the produced items. -/
theorem C6_handoff_unique (cfg : Cfg α β) (s : St α β) (hr : Reach cfg s) :
    (s.takenBy.map Prod.fst).Nodup ∧ (s.delivered.map Prod.fst).Nodup ∧
      (s.delivered : Multiset (Nat × β)) ≤
        ((s.produced.map (trP cfg.transform) : List (Nat × β)) :
          Multiset (Nat × β)) := by
  have inv := inv_reach hr
  have hle : (s.delivered : Multiset (Nat × β)) ≤
      ((s.produced.map (trP cfg.transform) : List (Nat × β)) :
        Multiset (Nat × β)) := by
    rw [← inv.conserve]
    exact Multiset.le_add_left _ _
  have hfst : (s.produced.map (trP cfg.transform)).map Prod.fst =
      s.produced.map Prod.fst := by
    simp [List.map_map, Function.comp, trP]
  have hidsR : (((s.produced.map (trP cfg.transform) : List (Nat × β)) :
      Multiset (Nat × β)).map Prod.fst).Nodup := by
    rw [show (((s.produced.map (trP cfg.transform) : List (Nat × β)) :
        Multiset (Nat × β)).map Prod.fst) =
      (((s.produced.map (trP cfg.transform)).map Prod.fst : List Nat) :
        Multiset Nat) from rfl]
    rw [hfst, inv.prodIds]
    exact Multiset.coe_nodup.mpr (List.nodup_range _)
  refine ⟨inv.takenNodup, ?_, hle⟩
  have h1 : ((s.delivered : Multiset (Nat × β)).map Prod.fst).Nodup :=
    Multiset.nodup_of_le (Multiset.map_le_map hle) hidsR
  exact Multiset.coe_nodup.mp h1

/-- C6 witness: the one-item run B took its item exactly once and delivered
it exactly once. -/
theorem C6_handoff_unique_witness :
    (stB23.takenBy.map Prod.fst).Nodup ∧
      (stB23.delivered.map Prod.fst).Nodup ∧
      (stB23.delivered : Multiset (Nat × Nat)) ≤
        ((stB23.produced.map (trP cfgB.transform) : List (Nat × Nat)) :
          Multiset (Nat × Nat)) :=
  C6_handoff_unique cfgB stB23 reachB

/-- C7 counterexample: with firstReads = 100 over an infinite stream read in
batches of 30, the adapter returns EOF on the fourth call, discarding that
batch, and only 90 reads are ever delivered, not 100. -/
theorem C7_counterexample :
    (readerTrace 100 30 10).2.2 = true ∧ (readerTrace 100 30 10).1 = 90 ∧
      ¬(readerTrace 100 30 10).1 = 100 := by
  decide

/-- C7 (amended): the cap is honoured at batch granularity.  The adapter
returns EOF on the first invocation whose cumulative read count exceeds the
cap (discarding that batch); until then every call delivers its full batch
of r reads; the delivered total when EOF is returned is r * (cap / r),
which equals the cap exactly when the batch size divides the cap (so with
first-items = 100 and a batch size dividing 100, exactly 100 reads reach
the sink). -/
theorem C7_firstItems_cap (cap r : Nat) (hr : 0 < r) :
    (readerTrace cap r (cap / r)).1 = (cap / r) * r ∧
    (readerTrace cap r (cap / r)).2.2 = false ∧
    (∀ k, cap / r + 1 ≤ k →
      readerTrace cap r k = ((cap / r) * r, (cap / r) * r + r, true)) ∧
    (r ∣ cap → ∀ k, cap / r + 1 ≤ k → (readerTrace cap r k).1 = cap) := by
  have hq := readerTrace_until cap r hr (cap / r) (le_refl _)
  refine ⟨by rw [hq], by rw [hq], readerTrace_past_cap cap r hr, ?_⟩
  intro hdvd k hk
  rw [readerTrace_past_cap cap r hr k hk]
  exact Nat.div_mul_cancel hdvd

/-- C7 witness: with cap 100 and batches of 5, exactly 100 reads are
delivered and the 21st call returns EOF. -/
theorem C7_firstItems_cap_witness :
    0 < 5 ∧
      ((readerTrace 100 5 (100 / 5)).1 = (100 / 5) * 5 ∧
       (readerTrace 100 5 (100 / 5)).2.2 = false ∧
       (∀ k, 100 / 5 + 1 ≤ k →
         readerTrace 100 5 k = ((100 / 5) * 5, (100 / 5) * 5 + 5, true)) ∧
       (5 ∣ 100 → ∀ k, 100 / 5 + 1 ≤ k → (readerTrace 100 5 k).1 = 100)) :=
  ⟨Nat.succ_pos 4, C7_firstItems_cap 100 5 (Nat.succ_pos 4)⟩

/-- C8: when readReads raises, the invocation reports the failure together
with the current numReads counter, re-raises the same error, leaves the
counter unchanged, and the producer run stops at that call: the error is
never retried or swallowed. -/
theorem C8_source_failure :
    ∀ (R : Type u) (E : Type v) (cap : Nat) (e : E) (st : Nat)
      (rest : List (ReadRes R E)),
      readerCall (R := R) cap (ReadRes.err e) st =
        (ReadOutcome.raised e st, st) ∧
      readerRunList cap (ReadRes.err e :: rest) st =
        ([], st, ReaderEnd.raisedEnd e st) :=
  fun _ _ _ _ _ _ => ⟨rfl, rfl⟩

/-- C9: when a run of invocations ends in an exception, the counter logged
at failure time equals the total number of reads delivered by the prior
successful invocations, and the failing invocation leaves the counter at
that value (the increment happens only after a successful read). -/
theorem C9_count_on_failure (R : Type u) (E : Type v) (cap : Nat)
    (results : List (ReadRes R E)) (ds : List (List R)) (stEnd : Nat)
    (e : E) (lg : Nat)
    (h : readerRunList cap results 0 = (ds, stEnd, ReaderEnd.raisedEnd e lg)) :
    lg = (ds.map List.length).sum ∧ stEnd = lg := by
  have h2 := readerRunList_raised_logged cap results 0 ds stEnd e lg h
  simpa using h2

/-- C9 witness: one successful batch of two reads, then a failure: the
logged count is 2. -/
theorem C9_count_on_failure_witness :
    readerRunList 100 [ReadRes.ok ([1, 2] : List Nat),
        ReadRes.err (7 : Nat)] 0 =
      ([[1, 2]], 2, ReaderEnd.raisedEnd 7 2) ∧
      ((2 : Nat) = (([[1, 2]] : List (List Nat)).map List.length).sum ∧
        (2 : Nat) = 2) :=
  ⟨rfl, C9_count_on_failure Nat Nat 100 [ReadRes.ok [1, 2], ReadRes.err 7]
    [[1, 2]] 2 7 2 rfl⟩

/-- C10: on a never-started pipeline waitForFinish returns without blocking:
the worker handles are not joinable so no join is performed, the consumer
slot vector is empty so the idle spin exits at its first check whatever the
fuel, and shutDown joins no thread; and Reduce.idle returns true for any
consumer whose every slot is EMPTY. -/
theorem C10_unstarted (γ : Type u) :
    reduceIdle ([] : List (Option γ)) = true ∧
    (∀ slots : List (Option γ),
      reduceIdle slots = true ↔ ∀ o ∈ slots, o = none) ∧
    (∀ fuel, spinUnstarted ([] : List (Option γ)) fuel = some 0) ∧
    (∀ n, joinsPerformed (List.replicate n false) = 0) ∧
    shutDownJoins false = 0 := by
  refine ⟨rfl, ?_, ?_, ?_, rfl⟩
  · intro slots
    rw [reduceIdle, List.all_eq_true]
    constructor
    · intro h o ho
      have h2 := h o ho
      cases o with
      | none => rfl
      | some x => simp at h2
    · intro h o ho
      rw [h o ho]; rfl
  · intro fuel
    cases fuel <;> simp [spinUnstarted, reduceIdle]
  · intro n
    induction n with
    | zero => rfl
    | succ n ih =>
      rw [List.replicate_succ]
      rw [show joinsPerformed (false :: List.replicate n false) =
        joinsPerformed (List.replicate n false) from rfl]
      exact ih

end Claims

end Flexcat
